import Mathlib

/-!
# Verification of vita's individual / transposition-table / symbol-set core

Shallow embedding of the numeric-GA individual (`i_num_ga`), the
transposition table (`ttable`), the symbol set's roulette selection and the
double-arithmetic primitives of the vita genetic-programming engine,
together with proofs about the claims of the specification.

Sources embedded:
 * `src/kernel/ga/i_num_ga.cc` / `src/kernel/ga/i_num_ga_iterator_inl.h`
   (constructor, `mutation`, two-point and differential-evolution
   `crossover`, `signature`/`hash`/`pack`, `operator==`, `distance`,
   `debug`, `load`, `save`);
 * `src/kernel/ttable.cc` (`hash_t::load/save`, `ttable` construction,
   `index`, `clear`, `find`, `insert`, `load`);
 * `symbol_set.cc` (unnamed part: `roulette_`, `roulette`,
   `roulette_terminal`, `decode`);
 * `double.h` primitives (unnamed part: `dbl::add::eval`, `dbl::div::eval`);
 * `individual.h` (unnamed part: `individual::set`, `individual::inc_age`).

Randomness (`random::boolean`, `random::sup`, `random::between`,
`random::element`) is modelled by passing the underlying uniform draws
explicitly as oracle arguments, following `random.h`:
`boolean(p)` is a Bernoulli draw, i.e. `u < p` for `u` uniform on `[0,1)`;
`element(v)` is `v[u]` for `u` uniform on `[0, v.size())`.

Streams (`std::istream`/`std::ostream` with `operator>>`/`operator<<` on
whitespace-separated numeric fields) are modelled as lists of integer
tokens; a read fails when the stream is exhausted or the token does not
fit the target type.
-/

set_option maxRecDepth 4000

namespace Vita

/-- 128-bit signature (`hash_t` of `ttable.h`; the header itself is not in
the sources, its layout — two unsigned 64-bit words `data[0]`, `data[1]`,
default-constructed to the all-zero "empty" value — is embedded from its
uses in `ttable.cc` and `i_num_ga` (`signature_.empty()`,
`signature_.clear()`, `table_[i].hash = hash_t()`, `h.data[0] & k_mask`). -/
structure HashT where
  data0 : Nat
  data1 : Nat
deriving DecidableEq, Repr

/-- `hash_t()`: the default-constructed, "empty" value. -/
def HashT.default : HashT := ⟨0, 0⟩

/-- `hash_t::empty()`: true iff both words are zero. -/
def HashT.emptyB (h : HashT) : Bool := h.data0 == 0 && h.data1 == 0

/-- `hash_t::clear()`: resets to the empty value. -/
def HashT.clear (_ : HashT) : HashT := HashT.default

/-- Modelled from the spec: `vita::hash` (MurmurHash3 of `ttable_hash.h`,
not among the sources) is a stable 128-bit content hash of a packed byte
stream with a seed.  Modelled as a deterministic fold of the bytes into
the first word (mod 2^64) with the second word recording the length;
the second word is always nonzero, so a computed signature is never
`empty()` (which the source relies on to mark "not cached"). -/
def vitaHash (bytes : List Nat) (seed : Nat) : HashT :=
  ⟨bytes.foldl (fun a b => (a * 131 + b + 1) % 2 ^ 64) seed,
   bytes.length + 1⟩

/-- A registered symbol (`symbol.h` descriptor, embedded from its uses):
opcode (unique small-integer primary key), category, terminal flag,
parametric flag and selection weight. -/
structure Symbol where
  opcode : Nat
  category : Nat
  terminal : Bool
  parametric : Bool
  weight : Nat
deriving DecidableEq, Repr

def defaultSymbol : Symbol := ⟨0, 0, true, false, 1⟩

instance : Inhabited Symbol := ⟨defaultSymbol⟩

/-- A gene of the numeric-GA genome (`basic_gene`): a symbol reference
plus the embedded parameter.  The GA genome holds only terminals
(arity 0), so the argument-loci array of `basic_gene` is always empty and
is omitted.  A non-parametric gene's `par` is left uninitialised by the
source's constructor; it is modelled as 0. -/
structure Gene where
  sym : Symbol
  par : Int
deriving DecidableEq, Repr

def defaultGene : Gene := ⟨defaultSymbol, 0⟩

instance : Inhabited Gene := ⟨defaultGene⟩

/-- `basic_gene::operator==` (gene_inl.h): symbols must coincide; for a
parametric symbol the parameters must coincide; otherwise the (empty,
arity-0) argument arrays are compared, i.e. the genes are equal. -/
def geneEqB (g1 g2 : Gene) : Bool :=
  g1.sym == g2.sym && (!g1.sym.parametric || g1.par == g2.par)

/-- `std::vector<gene>::operator==`: same length and element-wise
`gene::operator==`. -/
def genomeEqB : List Gene → List Gene → Bool
  | [], [] => true
  | g1 :: r1, g2 :: r2 => geneEqB g1 g2 && genomeEqB r1 r2
  | _, _ => false

/-- The symbol set as seen by the embedded operations
(`symbol_set.cc`): the global symbol list (for `decode`), the number of
categories and, per category, the symbol and terminal lists produced by
`by_category` together with the per-category weight sum. -/
structure SymbolSet where
  categories : Nat
  allSymbols : List Symbol
  symbolsOf : Nat → List Symbol
  terminalsOf : Nat → List Symbol
  sumOf : Nat → Nat

/-- `symbol_set::decode(opcode)`: linear scan of the global symbol list
for the first symbol with the given opcode (`nullptr` — here `none` —
when absent). -/
def SymbolSet.decode (ss : SymbolSet) (opcode : Nat) : Option Symbol :=
  ss.allSymbols.find? (fun s => s.opcode == opcode)

/-- The anonymous-namespace `roulette_(symbols, sum)` of `symbol_set.cc`,
with the uniform draw `slot = random::sup(sum)` passed explicitly.  The
source scans cumulative wedges (`for (auto wedge(symbols[i]->weight);
wedge <= slot; wedge += symbols[++i]->weight)`) and returns the first
symbol whose cumulative weight exceeds `slot`; the equivalent structural
recursion subtracts each passed wedge from the slot.  Running past the
end of the list (impossible for `slot < sum`, asserted in the source) is
`none`. -/
def rouletteScan : List Symbol → Nat → Option Symbol
  | [], _ => none
  | s :: rest, slot =>
      if slot < s.weight then some s else rouletteScan rest (slot - s.weight)

/-- `symbol_set::roulette(c)`: wedge scan over the category's symbol list
with its weight sum; `slot` is the uniform draw in `[0, sum)`. -/
def SymbolSet.roulette (ss : SymbolSet) (c : Nat) (slot : Nat) :
    Option Symbol :=
  rouletteScan (ss.symbolsOf c) slot

/-- `symbol_set::roulette_terminal(c)`: `random::element` over the
category's terminal list, i.e. the element at a uniform index `u` in
`[0, size)` — not a weighted draw. -/
def SymbolSet.rouletteTerminal (ss : SymbolSet) (c : Nat) (u : Nat) :
    Option Symbol :=
  (ss.terminalsOf c).get? u

/-- Cumulative weight of the first `i` symbols of a list. -/
def cumWeight (syms : List Symbol) (i : Nat) : Nat :=
  ((syms.take i).map Symbol.weight).sum

/-- `random::boolean(p)` (random.h): a Bernoulli draw, true with
probability `p`; realised as `u < p` with `u` the underlying uniform draw
on `[0,1)`. -/
def booleanDraw (p u : Rat) : Bool := u < p

/-- The numeric-GA individual (`i_num_ga`): the genome (one terminal gene
per category), the mutable cached signature (`signature_`, empty when not
cached) and the age.  The `env_`/`sset_` pointers are passed explicitly
to the operations that need them. -/
structure INumGa where
  genome : List Gene
  sigCache : HashT
  age : Nat
deriving DecidableEq, Repr

/-- `gene(terminal)` (gene_inl.h constructor): for a parametric terminal
the parameter is drawn by `sym->init()` — the drawn value `pu` is passed
explicitly; for a non-parametric terminal `par` is left as modelled
default 0. -/
def geneOfTerminal (s : Symbol) (pu : Int) : Gene :=
  ⟨s, if s.parametric then pu else 0⟩

/-- `gene(sset.roulette_terminal(c))`: the fresh gene drawn for category
`c` during construction/mutation; `ti` is the uniform index into the
category's terminal list and `pu` the parameter draw.  Out-of-range
indices (impossible for the source's in-range uniform draw) fall back to
the default symbol. -/
def freshGene (ss : SymbolSet) (c : Nat) (ti : Nat) (pu : Int) : Gene :=
  geneOfTerminal ((ss.terminalsOf c).getD ti defaultSymbol) pu

/-- `i_num_ga::i_num_ga(e, ss)` (i_num_ga.cc:26-40): one
`gene(ss.roulette_terminal(c))` per category; `signature_` is
default-constructed (empty) and `age_` is 0.  `ti`/`pu` supply the random
draws per category. -/
def iNumGaNew (ss : SymbolSet) (ti : Nat → Nat) (pu : Nat → Int) : INumGa :=
  { genome := (List.range ss.categories).map fun c => freshGene ss c (ti c) (pu c)
    sigCache := HashT.default
    age := 0 }

/-- `i_num_ga::mutation(p)` (i_num_ga.cc:110-127): for each position
`c < size()`, if `random::boolean(p)` fires, replace `genome_[c]` with
`gene(sset_->roulette_terminal(c))` and count the replacement.  `us c`,
`ti c` and `pu c` are the random draws used at position `c`.
Note: the source does NOT clear `signature_`. -/
def mutation (ss : SymbolSet) (ind : INumGa) (p : Rat)
    (us : Nat → Rat) (ti : Nat → Nat) (pu : Nat → Int) : INumGa × Nat :=
  let cs := ind.genome.length
  let step := (List.range cs).foldl
    (fun (acc : List Gene × Nat) c =>
      if booleanDraw p (us c) then
        (acc.1.set c (freshGene ss c (ti c) (pu c)), acc.2 + 1)
      else acc)
    (ind.genome, 0)
  ({ ind with genome := step.1 }, step.2)

/-- Two-point `i_num_ga::crossover(rhs)` (i_num_ga.cc:144-161): `rhs` is
a by-value copy; genes at positions `cut1 <= i < cut2` are copied in from
`*this`; the offspring's age is the maximum of the parents' ages.  The
cut draws `cut1 = random::sup(cs-1)`, `cut2 = random::between(cut1+1,cs)`
are passed explicitly.  `rhs`'s cached signature is carried over
unchanged by the source. -/
def crossover2 (lhs rhs : INumGa) (cut1 cut2 : Nat) : INumGa :=
  { rhs with
    genome := (rhs.genome.zip (List.range rhs.genome.length)).map
      (fun gi => if cut1 ≤ gi.2 ∧ gi.2 < cut2 then lhs.genome.getD gi.2 gi.1
                 else gi.1)
    age := max lhs.age rhs.age }

/-- Differential-evolution `i_num_ga::crossover(a, b)`
(i_num_ga_iterator_inl.h:265-288): the offspring starts as a copy of
`*this`; for each locus, with probability `p_cross`, the weighted
difference `random::between(f[0],f[1]) * (a[i] - b[i])` is added to the
offspring's parameter; the age is the maximum over all three parents.
Modelled from the spec: `i_num_ga.h` (with `operator[]`/`operator+=` on
loci) is not among the sources; the applied weighted-difference increment
at locus `i` is supplied as the oracle `delta i`. -/
def crossoverDE (self a b : INumGa) (pCross : Rat)
    (us : Nat → Rat) (delta : Nat → Int) : INumGa :=
  let cs := self.genome.length
  let genome := (List.range cs).foldl
    (fun acc i =>
      if booleanDraw pCross (us i) then
        acc.set i { (acc.getD i defaultGene) with
                     par := (acc.getD i defaultGene).par + delta i }
      else acc)
    self.genome
  { self with genome := genome, age := max self.age (max a.age b.age) }

/-- `individual::set(l, g)` (individual.h): writes the gene and clears
the cached signature.  Embedded at the numeric-GA genome shape, where a
locus is a genome index. -/
def setGene (ind : INumGa) (l : Nat) (g : Gene) : INumGa :=
  { ind with genome := ind.genome.set l g, sigCache := HashT.default }

/-- `individual::inc_age()` (individual.h): `++age_`. -/
def incAge (ind : INumGa) : INumGa := { ind with age := ind.age + 1 }

/-- Two's-complement 16-bit little-endian byte pair of an integer, as
produced by `reinterpret_cast<const unsigned char *>` on an x86
`std::int16_t`/`std::uint16_t`. -/
def bytes16 (v : Int) : List Nat :=
  let u := (v % 65536).toNat
  [u % 256, u / 256]

/-- Per-gene packing of `i_num_ga::pack` (i_num_ga.cc:217-249): the
opcode truncated to 16 bits, then — only for a parametric symbol — the
parameter truncated to 16 bits. -/
def packGene (g : Gene) : List Nat :=
  bytes16 (g.sym.opcode % 65536 : Nat) ++
    (if g.sym.parametric then bytes16 g.par else [])

/-- `i_num_ga::pack`: concatenation of the per-gene packings. -/
def pack (genome : List Gene) : List Nat := genome.flatMap packGene

/-- `i_num_ga::hash()` (i_num_ga.cc:199-212): `vita::hash` of the packed
byte form with seed 1973. -/
def hashOf (ind : INumGa) : HashT := vitaHash (pack ind.genome) 1973

/-- `i_num_ga::signature()` (i_num_ga.cc:185-191): the cached value, or
the recomputed hash if the cache is empty (memoised in the mutable
cache by the source; `signatureVal` is the returned value). -/
def signatureVal (ind : INumGa) : HashT :=
  if ind.sigCache.emptyB then hashOf ind else ind.sigCache

/-- `i_num_ga::operator==` (i_num_ga.cc:259-262):
`signature_ == x.signature_ && genome_ == x.genome_` — the raw cached
signature fields are compared, not the recomputed signatures. -/
def iNumGaEq (a b : INumGa) : Bool :=
  a.sigCache == b.sigCache && genomeEqB a.genome b.genome

/-- `i_num_ga::distance(ind)` (i_num_ga.cc:269-279): the number of
positions `i < categories` at which the genes differ
(`genome_[i] != ind.genome_[i]`). -/
def distance (cs : Nat) (a b : INumGa) : Nat :=
  (List.range cs).countP
    (fun i => !(geneEqB (a.genome.getD i defaultGene)
                        (b.genome.getD i defaultGene)))

/-- `i_num_ga::debug` (i_num_ga.cc:285-324): every position must hold a
terminal of the position's category, and a non-empty cached signature
must equal the recomputed hash (the environment check is external and
modelled as passing). -/
def iNumGaDebug (ss : SymbolSet) (ind : INumGa) : Bool :=
  (List.range ss.categories).all
    (fun c =>
      let g := ind.genome.getD c defaultGene
      g.sym.terminal && g.sym.category == c) &&
  (ind.sigCache.emptyB || ind.sigCache == hashOf ind)

/-! ## Streams and serialization -/

/-- Reads one whitespace-delimited token; fails on an exhausted stream. -/
def readTok : List Int → Option (Int × List Int)
  | [] => none
  | t :: r => some (t, r)

/-- Reads a token into an unsigned variable; fails on an exhausted
stream or a token outside the type's range (negative). -/
def readNat (s : List Int) : Option (Nat × List Int) :=
  match readTok s with
  | none => none
  | some (t, r) => if t < 0 then none else some (t.toNat, r)

/-- `i_num_ga::save(out)` (i_num_ga_iterator_inl.h:519-528): the age,
the gene count, then each gene's `opcode parameter` pair. -/
def saveInd (ind : INumGa) : List Int :=
  (ind.age : Int) :: (ind.genome.length : Int) ::
    ind.genome.flatMap (fun g => [(g.sym.opcode : Int), g.par])

/-- The per-gene loop of `i_num_ga::load`: reads `sz` genes, each an
opcode (resolved through `sset_->decode`, failing on an unknown opcode)
followed by a parameter. -/
def loadGenes (ss : SymbolSet) : Nat → List Int → Option (List Gene × List Int)
  | 0, s => some ([], s)
  | n + 1, s => do
      let (opcode, s1) ← readNat s
      let sym ← ss.decode opcode
      let (par, s2) ← readTok s1
      let (rest, s3) ← loadGenes ss n s2
      pure (⟨sym, par⟩ :: rest, s3)

/-- `i_num_ga::load(in)` (i_num_ga_iterator_inl.h:478-513): reads the
age, a nonzero gene count and the genes into temporaries; only on full
success commits them and clears the signature cache.  On failure the
individual is unmodified. -/
def loadInd (ss : SymbolSet) (ind : INumGa) (s : List Int) : Bool × INumGa :=
  match readNat s with
  | none => (false, ind)
  | some (tAge, s1) =>
    match readNat s1 with
    | none => (false, ind)
    | some (sz, s2) =>
      if sz = 0 then (false, ind)
      else
        match loadGenes ss sz s2 with
        | none => (false, ind)
        | some (v, _) =>
          (true, { genome := v, sigCache := HashT.default, age := tAge })

/-- `hash_t::save(out)` (ttable.cc:45-50): the two data words. -/
def hashTSave (h : HashT) : List Int := [(h.data0 : Int), (h.data1 : Int)]

/-- `hash_t::load(in)` (ttable.cc:26-39): reads both words into a
temporary and assigns it only on success; on failure the hash is
unmodified (and the partially read temporary is merely printed). -/
def hashTLoad (h : HashT) (s : List Int) : Bool × HashT × List Int :=
  match readNat s with
  | none => (false, h, s)
  | some (d0, s1) =>
    match readNat s1 with
    | none => (false, h, s1)
    | some (d1, s2) => (true, ⟨d0, d1⟩, s2)

/-! ## Transposition table (`ttable.cc`) -/

/-- A table slot (`ttable.h`'s `slot`, embedded from its uses in
`ttable.cc`): signature, fitness and the seal stamped at insertion.
The fitness is modelled as a single numeric value (the spec's per-slot
record is `signature fitness seal`). -/
structure Slot where
  hash : HashT
  fitness : Int
  seal_ : Nat
deriving DecidableEq, Repr

/-- The transposition table: `2^bits` slots, the current seal and the
probe/hit counters.  Freshly allocated slots are modelled as zeroed
(empty hash, seal 0 — never valid, since the first table seal is 1). -/
structure Ttable where
  bits : Nat
  seal_ : Nat
  probes : Nat
  hits : Nat
  table : Nat → Slot

/-- `ttable::ttable(bits)` (ttable.cc:57-62): `seal_ = 1`,
`probes_ = hits_ = 0`. -/
def mkTtable (bits : Nat) : Ttable :=
  { bits := bits, seal_ := 1, probes := 0, hits := 0
    table := fun _ => ⟨HashT.default, 0, 0⟩ }

/-- `ttable::index(h)` (ttable.cc:76-80): `h.data[0] & k_mask` with
`k_mask = 2^bits - 1`, i.e. the low `bits` bits. -/
def ttIndex (t : Ttable) (h : HashT) : Nat := h.data0 % 2 ^ t.bits

/-- `ttable::find(ind, &fitness)` (ttable.cc:136-156): counts a probe,
compares the mapped slot's seal with the current seal and its hash with
the individual's signature; on a hit counts a hit and returns the stored
fitness. -/
def ttFind (t : Ttable) (h : HashT) : Bool × Option Int × Ttable :=
  let t1 := { t with probes := t.probes + 1 }
  let s := t.table (ttIndex t h)
  if t.seal_ == s.seal_ && h == s.hash then
    (true, some s.fitness, { t1 with hits := t1.hits + 1 })
  else
    (false, none, t1)

/-- `ttable::insert(ind, fitness)` (ttable.cc:182-193): unconditional
overwrite of the mapped slot, stamped with the current seal. -/
def ttInsert (t : Ttable) (h : HashT) (fit : Int) : Ttable :=
  { t with table := fun j =>
      if j = ttIndex t h then ⟨h, fit, t.seal_⟩ else t.table j }

/-- `ttable::clear()` (ttable.cc:86-97): zeroes the statistics and bumps
the global seal; the slots themselves are not rewritten. -/
def ttClear (t : Ttable) : Ttable :=
  { t with probes := 0, hits := 0, seal_ := t.seal_ + 1 }

/-- One observable operation on a transposition table; an individual
enters `find`/`insert` only through its signature. -/
inductive TtOp where
  | find (h : HashT)
  | insert (h : HashT) (fit : Int)
  | clear
deriving Repr

/-- Runs a sequence of table operations. -/
def ttRun (t : Ttable) : List TtOp → Ttable
  | [] => t
  | TtOp.find h :: rest => ttRun (ttFind t h).2.2 rest
  | TtOp.insert h fit :: rest => ttRun (ttInsert t h fit) rest
  | TtOp.clear :: rest => ttRun (ttClear t) rest

/-- The slot-loading loop of `ttable::load`: each slot record is a
signature (`hash_t::load`), a fitness and a seal; each successfully read
slot is immediately written into the table at its hash's index.
The fitness load (`fitness_t::load`, not among the sources) is modelled
from the spec as reading the single fitness value. -/
def ttLoadSlots (t : Ttable) : Nat → List Int → Bool × Ttable
  | 0, _ => (true, t)
  | n + 1, s =>
    match hashTLoad HashT.default s with
    | (false, _, _) => (false, t)
    | (true, h, s1) =>
      match readTok s1 with
      | none => (false, t)
      | some (fit, s2) =>
        match readNat s2 with
        | none => (false, t)
        | some (sl, s3) =>
          let slot : Slot := ⟨h, fit, sl⟩
          ttLoadSlots
            { t with table := fun j =>
                if j = ttIndex t h then slot else t.table j }
            n s3

/-- `ttable::load(in)` (ttable.cc:202-243): reads seal, probes, hits and
the slot count, then — note — assigns `seal_`, `probes_` and `hits_`
BEFORE reading the slots; a failure while reading a slot returns `false`
with those fields (and any already-read slots) already overwritten. -/
def ttLoad (t : Ttable) (s : List Int) : Bool × Ttable :=
  match readNat s with
  | none => (false, t)
  | some (tSeal, s1) =>
    match readNat s1 with
    | none => (false, t)
    | some (tProbes, s2) =>
      match readNat s2 with
      | none => (false, t)
      | some (tHits, s3) =>
        match readNat s3 with
        | none => (false, t)
        | some (n, s4) =>
          ttLoadSlots { t with seal_ := tSeal, probes := tProbes, hits := tHits }
            n s4

/-! ## Double-arithmetic primitives (`double.h`)

The interpreter's evaluation result is a `boost::any`: either empty
(invalid) or carrying a `double`.  A C++ `double` is modelled as an
IEEE-754-binary64-style value: a finite rational, an infinity of either
sign, or NaN; finite results of magnitude beyond the binary64 range
overflow to the correspondingly signed infinity. -/

/-- Model of a C++ `double`: finite value, infinities or NaN. -/
inductive DblVal where
  | num (q : Rat)
  | inf
  | ninf
  | nan
deriving DecidableEq, Repr

/-- Upper bound of the IEEE binary64 finite range (2^1024). -/
def maxDbl : Rat := (2 : Rat) ^ 1024

/-- `std::isfinite`. -/
def isFiniteB : DblVal → Bool
  | DblVal.num _ => true
  | _ => false

/-- `isinf`. -/
def isInfB : DblVal → Bool
  | DblVal.inf => true
  | DblVal.ninf => true
  | _ => false

/-- Rounds a rational result into the binary64 range: values of
magnitude beyond the range overflow to the signed infinity. -/
def clampDbl (q : Rat) : DblVal :=
  if q > maxDbl then DblVal.inf
  else if q < -maxDbl then DblVal.ninf
  else DblVal.num q

/-- IEEE addition on the model. -/
def dAdd : DblVal → DblVal → DblVal
  | DblVal.num a, DblVal.num b => clampDbl (a + b)
  | DblVal.num _, v => v
  | DblVal.inf, DblVal.num _ => DblVal.inf
  | DblVal.ninf, DblVal.num _ => DblVal.ninf
  | DblVal.inf, DblVal.inf => DblVal.inf
  | DblVal.ninf, DblVal.ninf => DblVal.ninf
  | DblVal.inf, DblVal.ninf => DblVal.nan
  | DblVal.ninf, DblVal.inf => DblVal.nan
  | _, DblVal.nan => DblVal.nan
  | DblVal.nan, _ => DblVal.nan

/-- IEEE division on the model: a nonzero finite value divided by zero
gives the signed infinity, `0/0` gives NaN. -/
def dDiv : DblVal → DblVal → DblVal
  | DblVal.num a, DblVal.num b =>
      if b = 0 then
        if a = 0 then DblVal.nan
        else if a > 0 then DblVal.inf else DblVal.ninf
      else clampDbl (a / b)
  | DblVal.num _, DblVal.inf => DblVal.num 0
  | DblVal.num _, DblVal.ninf => DblVal.num 0
  | DblVal.inf, DblVal.num b => if b < 0 then DblVal.ninf else DblVal.inf
  | DblVal.ninf, DblVal.num b => if b < 0 then DblVal.inf else DblVal.ninf
  | DblVal.nan, _ => DblVal.nan
  | _, _ => DblVal.nan

/-- `dbl::add::eval` (double.h): evaluates both arguments, propagating an
empty result unchanged; adds them, and returns empty when the sum is
infinite (`if (isinf(ret)) return boost::any();`). -/
def faddEval (ev0 ev1 : Option DblVal) : Option DblVal :=
  match ev0 with
  | none => none
  | some v0 =>
    match ev1 with
    | none => none
    | some v1 =>
      let ret := dAdd v0 v1
      if isInfB ret then none else some ret

/-- `dbl::div::eval` (double.h): evaluates both arguments, propagating an
empty result unchanged; divides them, and returns empty when the
quotient is not finite (`if (!std::isfinite(ret)) return
boost::any();`). -/
def fdivEval (ev0 ev1 : Option DblVal) : Option DblVal :=
  match ev0 with
  | none => none
  | some v0 =>
    match ev1 with
    | none => none
    | some v1 =>
      let ret := dDiv v0 v1
      if !isFiniteB ret then none else some ret

/-! ## Concrete instances used by the theorems -/

/-- A non-parametric terminal of category 0, weight 1, opcode 1. -/
def symA : Symbol := ⟨1, 0, true, false, 1⟩

/-- A non-parametric terminal of category 0, weight 3, opcode 2. -/
def symB : Symbol := ⟨2, 0, true, false, 3⟩

/-- A one-category symbol set holding both terminals (sorted descending
by weight, as `symbol_set::insert` maintains). -/
def ssT : SymbolSet :=
  { categories := 1
    allSymbols := [symA, symB]
    symbolsOf := fun _ => [symB, symA]
    terminalsOf := fun _ => [symB, symA]
    sumOf := fun _ => 4 }

/-- A one-category symbol set with a single terminal. -/
def ssU : SymbolSet :=
  { categories := 1
    allSymbols := [symA]
    symbolsOf := fun _ => [symA]
    terminalsOf := fun _ => [symA]
    sumOf := fun _ => 1 }

/-- A one-gene individual with an empty signature cache. -/
def indA : INumGa := { genome := [⟨symA, 0⟩], sigCache := HashT.default, age := 0 }

/-- `indA` after `signature()` has been called: the cache holds the
computed hash. -/
def indAC : INumGa := { indA with sigCache := hashOf indA }

/-- Gene-identical to `indAC` (and same age) but with an empty signature
cache. -/
def indE : INumGa := { genome := [⟨symA, 0⟩], sigCache := HashT.default, age := 0 }

/-- Gene-identical to `indAC` but with age 5 and an empty signature
cache. -/
def indF : INumGa := { genome := [⟨symA, 0⟩], sigCache := HashT.default, age := 5 }

end Vita

namespace Vita

/-! ## Supporting lemmas -/

theorem geneEqB_refl (g : Gene) : geneEqB g g = true := by
  simp [geneEqB]

theorem genomeEqB_refl (gs : List Gene) : genomeEqB gs gs = true := by
  induction gs with
  | nil => rfl
  | cons g t ih => simp [genomeEqB, geneEqB_refl, ih]

/-- Consistency invariant of a transposition table: the hit counter never
exceeds the probe counter, and no slot carries a seal newer than the
table's current seal. -/
def TtInv (t : Ttable) : Prop :=
  t.hits ≤ t.probes ∧ ∀ j, (t.table j).seal_ ≤ t.seal_

theorem ttInv_mk (bits : Nat) : TtInv (mkTtable bits) := by
  refine ⟨Nat.le_refl 0, fun j => ?_⟩
  simp [mkTtable]

theorem ttInv_find (t : Ttable) (h : HashT) (hinv : TtInv t) :
    TtInv (ttFind t h).2.2 := by
  obtain ⟨h1, h2⟩ := hinv
  unfold ttFind
  by_cases hc : (t.seal_ == (t.table (ttIndex t h)).seal_ && h == (t.table (ttIndex t h)).hash) = true
  · simp only [hc, if_pos]
    exact ⟨Nat.succ_le_succ h1, h2⟩
  · simp only [Bool.not_eq_true] at hc
    simp only [hc, if_neg, Bool.false_eq_true, not_false_iff]
    exact ⟨Nat.le_succ_of_le h1, h2⟩

theorem ttInv_insert (t : Ttable) (h : HashT) (fit : Int) (hinv : TtInv t) :
    TtInv (ttInsert t h fit) := by
  obtain ⟨h1, h2⟩ := hinv
  refine ⟨h1, fun j => ?_⟩
  simp only [ttInsert]
  by_cases hj : j = ttIndex t h
  · simp [hj]
  · simpa [hj] using h2 j

theorem ttInv_clear (t : Ttable) (hinv : TtInv t) : TtInv (ttClear t) := by
  obtain ⟨_, h2⟩ := hinv
  exact ⟨Nat.le_refl 0, fun j => Nat.le_succ_of_le (h2 j)⟩

theorem ttInv_run (ops : List TtOp) : ∀ t : Ttable, TtInv t → TtInv (ttRun t ops) := by
  induction ops with
  | nil => intro t ht; exact ht
  | cons op rest ih =>
    intro t ht
    cases op with
    | find h => exact ih _ (ttInv_find t h ht)
    | insert h fit => exact ih _ (ttInv_insert t h fit ht)
    | clear => exact ih _ (ttInv_clear t ht)

theorem foldl_keep {α β : Type} (l : List β) (a : α) :
    l.foldl (fun acc _ => acc) a = a := by
  induction l generalizing a with
  | nil => rfl
  | cons x t ih => exact ih a

/-- The mutation loop with an always-firing draw counts one replacement
per position. -/
theorem mutStep_count (f : Nat → Gene) :
    ∀ (n : Nat) (l : List Gene) (k : Nat),
      (((List.range n).foldl
        (fun (acc : List Gene × Nat) c => (acc.1.set c (f c), acc.2 + 1))
        (l, k))).2 = k + n := by
  intro n
  induction n with
  | zero => intro l k; rfl
  | succ m ih =>
    intro l k
    rw [List.range_succ, List.foldl_append]
    simp [ih]
    omega

theorem mutStep_length (f : Nat → Gene) :
    ∀ (n : Nat) (l : List Gene) (k : Nat),
      (((List.range n).foldl
        (fun (acc : List Gene × Nat) c => (acc.1.set c (f c), acc.2 + 1))
        (l, k))).1.length = l.length := by
  intro n
  induction n with
  | zero => intro l k; rfl
  | succ m ih =>
    intro l k
    rw [List.range_succ, List.foldl_append]
    simp [List.length_set, ih]

/-- The mutation loop with an always-firing draw replaces every
in-bounds position with the freshly drawn gene. -/
theorem mutStep_get (f : Nat → Gene) :
    ∀ (n : Nat) (l : List Gene) (k : Nat) (j : Nat), j < n → j < l.length →
      (((List.range n).foldl
        (fun (acc : List Gene × Nat) c => (acc.1.set c (f c), acc.2 + 1))
        (l, k))).1[j]? = some (f j) := by
  intro n
  induction n with
  | zero => intro l k j hj _; omega
  | succ m ih =>
    intro l k j hj hl
    rw [List.range_succ, List.foldl_append]
    simp only [List.foldl_cons, List.foldl_nil]
    rcases Nat.lt_or_ge j m with hlt | hge
    · rw [List.getElem?_set_ne (Nat.ne_of_gt hlt)]
      exact ih l k j hlt hl
    · have hjm : j = m := by omega
      subst hjm
      have hlen : j < (((List.range j).foldl
          (fun (acc : List Gene × Nat) c => (acc.1.set c (f c), acc.2 + 1))
          (l, k))).1.length := by
        rw [mutStep_length]
        exact hl
      exact List.getElem?_set_self hlen

/-- The roulette wedge scan returns the `i`-th symbol exactly when the
uniform draw lands in the `i`-th cumulative-weight wedge. -/
theorem rouletteScan_wedge :
    ∀ (syms : List Symbol) (slot i : Nat),
      cumWeight syms i ≤ slot → slot < cumWeight syms (i + 1) →
      rouletteScan syms slot = syms[i]? := by
  intro syms
  induction syms with
  | nil =>
    intro slot i _ h2
    simp [cumWeight] at h2
  | cons s rest ih =>
    intro slot i h1 h2
    cases i with
    | zero =>
      have hs : slot < s.weight := by
        simpa [cumWeight] using h2
      simp [rouletteScan, hs]
    | succ m =>
      have hcum1 : cumWeight (s :: rest) (m + 1) = s.weight + cumWeight rest m := by
        simp [cumWeight, List.take_succ_cons]
      have hcum2 : cumWeight (s :: rest) (m + 2) = s.weight + cumWeight rest (m + 1) := by
        simp [cumWeight, List.take_succ_cons]
      have hge : s.weight ≤ slot := by
        have := h1
        rw [hcum1] at this
        omega
      have hns : ¬ slot < s.weight := by omega
      have ha : cumWeight rest m ≤ slot - s.weight := by
        rw [hcum1] at h1
        omega
      have hb : slot - s.weight < cumWeight rest (m + 1) := by
        rw [hcum2] at h2
        omega
      simp only [rouletteScan, hns, if_neg, List.getElem?_cons_succ]
      simpa using ih (slot - s.weight) m ha hb

/-- Drawing a uniform index and reading the list entry realises the
uniform distribution over list positions: each symbol is hit as often as
it occurs in the list. -/
theorem countP_get_range :
    ∀ (l : List Symbol) (x : Symbol),
      ((List.range l.length).countP (fun u => l[u]? == some x)) = l.count x := by
  intro l
  induction l with
  | nil => intro x; rfl
  | cons h t ih =>
    intro x
    rw [List.length_cons, List.range_succ_eq_map, List.countP_cons,
      List.countP_map]
    have hcomp :
        ((fun u => (h :: t)[u]? == some x) ∘ Nat.succ)
          = (fun u => t[u]? == some x) := by
      funext u
      simp
    rw [hcomp, ih, List.count_cons]
    by_cases hx : h = x
    · subst hx
      simp
    · simp [hx, Ne.symm hx]

/-- Genes equal in the `gene::operator==` sense pack to the same bytes:
the parameter enters the packed form only for parametric symbols, for
which `operator==` compares it. -/
theorem packGene_congr (g1 g2 : Gene) (h : geneEqB g1 g2 = true) :
    packGene g1 = packGene g2 := by
  simp only [geneEqB, Bool.and_eq_true, beq_iff_eq, Bool.or_eq_true,
    Bool.not_eq_true'] at h
  obtain ⟨hs, hp⟩ := h
  rcases hp with hnp | hpar
  · rw [hs] at hnp
    simp [packGene, hs, hnp]
  · simp [packGene, hs, hpar]

/-- Genomes equal in the `operator==` sense have identical packed byte
forms. -/
theorem pack_congr :
    ∀ (g1 g2 : List Gene), genomeEqB g1 g2 = true → pack g1 = pack g2 := by
  intro g1
  induction g1 with
  | nil =>
    intro g2 h
    cases g2 with
    | nil => rfl
    | cons x t => simp [genomeEqB] at h
  | cons x t ih =>
    intro g2 h
    cases g2 with
    | nil => simp [genomeEqB] at h
    | cons y u =>
      simp only [genomeEqB, Bool.and_eq_true] at h
      simp only [pack, List.flatMap_cons]
      rw [← pack, ← pack, packGene_congr x y h.1, ih u h.2]

/-- The gene loop of `i_num_ga::load` parses back exactly the genes that
`i_num_ga::save` wrote, provided each gene's opcode decodes to its
symbol. -/
theorem loadGenes_save (ss : SymbolSet) :
    ∀ (gs : List Gene) (rest : List Int),
      (∀ g ∈ gs, ss.decode g.sym.opcode = some g.sym) →
      loadGenes ss gs.length
        (gs.flatMap (fun g => [(g.sym.opcode : Int), g.par]) ++ rest)
        = some (gs, rest) := by
  intro gs
  induction gs with
  | nil => intro rest _; rfl
  | cons g t ih =>
    intro rest hdec
    have hg : ss.decode g.sym.opcode = some g.sym := hdec g (List.mem_cons_self g t)
    have ht : ∀ x ∈ t, ss.decode x.sym.opcode = some x.sym :=
      fun x hx => hdec x (List.mem_cons_of_mem g hx)
    have h1 : ¬ ((g.sym.opcode : Int) < 0) := by omega
    simp [loadGenes, readNat, readTok, h1, hg, ih rest ht]

/-- After a `clear`, every slot's seal is strictly older than the bumped
table seal, so no lookup can match. -/
theorem ttFind_after_clear (t : Ttable) (hinv : TtInv t) (h : HashT) :
    (ttFind (ttClear t) h).1 = false := by
  obtain ⟨_, h2⟩ := hinv
  unfold ttFind
  have hne : ((ttClear t).seal_ == ((ttClear t).table (ttIndex (ttClear t) h)).seal_) = false := by
    simp only [ttClear, beq_eq_false_iff_ne, ne_eq]
    intro heq
    have := h2 (ttIndex { t with probes := 0, hits := 0, seal_ := t.seal_ + 1 } h)
    omega
  simp [hne]

end Vita

namespace Vita

/-! ## Claim theorems -/

/-- C1 (code bug): `i_num_ga::mutation` replaces genes but never clears
`signature_`.  At a concrete individual whose signature has been cached,
`mutation(1.0)` reports one mutation and really changes the gene, yet the
stored cache is the old, non-empty hash — and the individual then fails
the source's own `debug()` consistency check, which `mutation` itself
asserts (`assert(debug())`).  By contrast `individual::set` does clear
the cache. -/
theorem c1_mutation_keeps_stale_signature :
    (mutation ssT indAC 1 (fun _ => 0) (fun _ => 0) (fun _ => 0)).2 = 1 ∧
    (mutation ssT indAC 1 (fun _ => 0) (fun _ => 0) (fun _ => 0)).1.genome
      = [⟨symB, 0⟩] ∧
    genomeEqB
      (mutation ssT indAC 1 (fun _ => 0) (fun _ => 0) (fun _ => 0)).1.genome
      indAC.genome = false ∧
    (mutation ssT indAC 1 (fun _ => 0) (fun _ => 0) (fun _ => 0)).1.sigCache
      = indAC.sigCache ∧
    (mutation ssT indAC 1 (fun _ => 0) (fun _ => 0) (fun _ => 0)).1.sigCache.emptyB
      = false ∧
    iNumGaDebug ssT
      (mutation ssT indAC 1 (fun _ => 0) (fun _ => 0) (fun _ => 0)).1 = false ∧
    (setGene indAC 0 ⟨symB, 0⟩).sigCache.emptyB = true := by
  decide

/-- C3 (code bug): `ttable::load` commits `seal_`, `probes_` and `hits_`
before reading the slots, so on the truncated stream `"2 7 3 1"` (header
promising one slot, then end of stream) it returns `false` with the
table's seal/probes/hits already overwritten — contradicting its own
documentation that a failed load leaves the object unchanged.
(`hash_t::load` and `i_num_ga::load` read into temporaries and do satisfy
the claim.) -/
theorem c3_ttable_load_modifies_on_failure :
    (ttLoad (mkTtable 4) [2, 7, 3, 1]).1 = false ∧
    (ttLoad (mkTtable 4) [2, 7, 3, 1]).2.seal_ = 2 ∧
    (ttLoad (mkTtable 4) [2, 7, 3, 1]).2.probes = 7 ∧
    (ttLoad (mkTtable 4) [2, 7, 3, 1]).2.hits = 3 ∧
    (mkTtable 4).seal_ = 1 ∧ (mkTtable 4).probes = 0 ∧ (mkTtable 4).hits = 0 := by
  exact ⟨rfl, rfl, rfl, rfl, rfl, rfl, rfl⟩

/-- C5 counterexample: the value returned by `mutation` is the number of
Bernoulli-selected loci, not the number of genes actually changed.  In a
category with a single (non-parametric) terminal, `mutation(1.0)` redraws
the same gene: the genome is unchanged (zero genes changed) yet the
returned count is 1. -/
theorem c5_counterexample_return_overcounts :
    (mutation ssU indA 1 (fun _ => 0) (fun _ => 0) (fun _ => 0)).1.genome
      = indA.genome ∧
    (mutation ssU indA 1 (fun _ => 0) (fun _ => 0) (fun _ => 0)).2 = 1 := by
  decide

/-- C6 (code bug): `i_num_ga::operator==` compares the raw cached
signature fields with `&&` rather than using them as a fast path.  For
two gene-by-gene equal individuals of which only one has its signature
cached (a situation any `signature()` call creates), the comparison
returns `false`, contradicting the operator's own documentation ("true if
the two individuals are equal symbol by symbol") and the claimed
characterisation; `distance` correctly reports zero differing genes on
the same pair. -/
theorem c6_equality_depends_on_cache_state :
    indAC.genome = indE.genome ∧
    genomeEqB indAC.genome indE.genome = true ∧
    distance 1 indAC indE = 0 ∧
    indAC.age = indE.age ∧
    iNumGaEq indAC indE = false := by
  decide

/-- C10 counterexample: two gene-identical individuals with different
ages do NOT necessarily compare equal: if exactly one of them carries a
cached signature, `operator==` returns `false` (its cached-signature
conjunct fails), although their genomes — and their recomputed
signatures — coincide. -/
theorem c10_counterexample_mixed_cache :
    indAC.genome = indF.genome ∧
    indAC.age = 0 ∧ indF.age = 5 ∧
    signatureVal indAC = signatureVal indF ∧
    iNumGaEq indAC indF = false := by
  decide

/-- C2: in every state reachable from construction by any sequence of
`find`/`insert`/`clear` operations, the transposition table satisfies
`probes() >= hits()`; and immediately after a `clear()` (which only
bumps the global seal) a `find()` returns `false` for every individual —
in particular for any individual inserted before the clear. -/
theorem c2_ttable_invariant (bits : Nat) (ops : List TtOp) :
    (ttRun (mkTtable bits) ops).hits ≤ (ttRun (mkTtable bits) ops).probes ∧
    ∀ h : HashT, (ttFind (ttClear (ttRun (mkTtable bits) ops)) h).1 = false := by
  have hinv := ttInv_run ops (mkTtable bits) (ttInv_mk bits)
  exact ⟨hinv.1, fun h => ttFind_after_clear _ hinv h⟩

/-- C4: serialization round trip.  For every individual with a non-empty
genome whose genes' opcodes decode back to their symbols, loading the
saved stream (age, gene count, then `opcode parameter` per gene) into
any target succeeds and yields an individual with literally the same
genome (hence gene-by-gene equal), the same age, an empty (never
persisted) signature cache, and the same recomputed signature. -/
theorem c4_save_load_roundtrip (ss : SymbolSet) (ind tgt : INumGa)
    (hne : ind.genome ≠ [])
    (hdec : ∀ g ∈ ind.genome, ss.decode g.sym.opcode = some g.sym) :
    loadInd ss tgt (saveInd ind)
      = (true, { genome := ind.genome, sigCache := HashT.default, age := ind.age }) ∧
    genomeEqB (loadInd ss tgt (saveInd ind)).2.genome ind.genome = true ∧
    signatureVal (loadInd ss tgt (saveInd ind)).2 = hashOf ind ∧
    (loadInd ss tgt (saveInd ind)).2.age = ind.age ∧
    (loadInd ss tgt (saveInd ind)).2.sigCache.emptyB = true := by
  have hlen : ind.genome.length ≠ 0 := by
    intro h
    exact hne (List.length_eq_zero.mp h)
  have hage : ¬ ((ind.age : Int) < 0) := by omega
  have hl : ¬ ((ind.genome.length : Int) < 0) := by omega
  have hgenes := loadGenes_save ss ind.genome [] hdec
  rw [List.append_nil] at hgenes
  have hmain : loadInd ss tgt (saveInd ind)
      = (true, { genome := ind.genome, sigCache := HashT.default, age := ind.age }) := by
    simp [loadInd, saveInd, readNat, readTok, hage, hl, hlen, hgenes,
      List.append_nil]
  refine ⟨hmain, ?_, ?_, ?_, ?_⟩ <;> rw [hmain]
  · exact genomeEqB_refl ind.genome
  · simp [signatureVal, HashT.emptyB, HashT.default, hashOf]
  · simp [HashT.emptyB, HashT.default]

/-- C4 witness: the round trip evaluated at a concrete symbol set and a
concrete individual whose signature cache is populated: the reloaded
individual carries the same genome and age with the cache cleared. -/
theorem c4_witness :
    loadInd ssT indA (saveInd indAC)
      = (true, { genome := indAC.genome, sigCache := HashT.default,
                 age := indAC.age }) :=
  (c4_save_load_roundtrip ssT indAC indA (by decide) (by decide)).1

/-- C5 (amended): for every individual, `mutation(0.0)` changes no gene
and returns 0; `mutation(1.0)` replaces every gene with the freshly
drawn terminal gene for its locus — a legal gene (a terminal of the
locus's category) whenever the symbol set's per-category terminal lists
are well formed; and the returned value is the number of loci redrawn
(the number of Bernoulli successes), which is an upper bound on — but,
as the counterexample shows, not always equal to — the number of genes
actually changed. -/
theorem c5_mutation_probability_law (ss : SymbolSet) (ind : INumGa)
    (us : Nat → Rat) (ti : Nat → Nat) (pu : Nat → Int) :
    ((∀ c, (0 : Rat) ≤ us c) → mutation ss ind 0 us ti pu = (ind, 0)) ∧
    ((∀ c, us c < (1 : Rat)) →
      (mutation ss ind 1 us ti pu).2 = ind.genome.length ∧
      ∀ j, j < ind.genome.length →
        (mutation ss ind 1 us ti pu).1.genome[j]?
          = some (freshGene ss j (ti j) (pu j))) ∧
    (∀ c, ti c < (ss.terminalsOf c).length →
      (∀ s ∈ ss.terminalsOf c, s.terminal = true ∧ s.category = c) →
      (freshGene ss c (ti c) (pu c)).sym.terminal = true ∧
      (freshGene ss c (ti c) (pu c)).sym.category = c) := by
  refine ⟨?_, ?_, ?_⟩
  · intro h
    have hb : ∀ c, booleanDraw 0 (us c) = false := by
      intro c
      simp [booleanDraw, decide_eq_false_iff_not, not_lt]
      exact h c
    simp [mutation, hb, foldl_keep]
  · intro h
    have hb : ∀ c, booleanDraw 1 (us c) = true := by
      intro c
      simp [booleanDraw]
      exact h c
    constructor
    · simp only [mutation, hb, if_true]
      have := mutStep_count (fun c => freshGene ss c (ti c) (pu c))
        ind.genome.length ind.genome 0
      simpa using this
    · intro j hj
      simp only [mutation, hb, if_true]
      exact mutStep_get (fun c => freshGene ss c (ti c) (pu c))
        ind.genome.length ind.genome 0 j hj hj
  · intro c hc hwf
    have hmem : (ss.terminalsOf c).getD (ti c) defaultSymbol ∈ ss.terminalsOf c := by
      rw [List.getD_eq_getElem _ _ hc]
      exact List.getElem_mem hc
    have := hwf _ hmem
    simpa [freshGene, geneOfTerminal] using this

/-- C5 witness: at a concrete symbol set and individual, `mutation(0.0)`
leaves everything unchanged and returns 0; `mutation(1.0)` returns the
genome length; the freshly drawn gene is a terminal. -/
theorem c5_witness :
    mutation ssT indA 0 (fun _ => 0) (fun _ => 0) (fun _ => 0) = (indA, 0) ∧
    (mutation ssT indA 1 (fun _ => 0) (fun _ => 0) (fun _ => 0)).2 = 1 ∧
    (freshGene ssT 0 0 0).sym.terminal = true := by
  refine ⟨(c5_mutation_probability_law ssT indA _ _ _).1 (fun c => le_refl 0),
    ?_, ?_⟩
  · exact ((c5_mutation_probability_law ssT indA (fun _ => 0) (fun _ => 0)
      (fun _ => 0)).2.1 (fun c => by norm_num)).1
  · exact ((c5_mutation_probability_law ssT indA (fun _ => 0) (fun _ => 0)
      (fun _ => 0)).2.2 0 (by decide) (by decide)).1

/-- C7: offspring age.  The two-point crossover's offspring has age
`max(lhs.age, rhs.age)`; the three-parent differential-evolution
crossover's offspring has the maximum age of all three parents; a
freshly constructed (non-offspring) individual has age 0 — for all
parents and all random draws. -/
theorem c7_offspring_age (lhs rhs self a b : INumGa) (cut1 cut2 : Nat)
    (pCross : Rat) (us : Nat → Rat) (delta : Nat → Int)
    (ss : SymbolSet) (ti : Nat → Nat) (pu : Nat → Int) :
    (crossover2 lhs rhs cut1 cut2).age = max lhs.age rhs.age ∧
    (crossoverDE self a b pCross us delta).age
      = max self.age (max a.age b.age) ∧
    (iNumGaNew ss ti pu).age = 0 :=
  ⟨rfl, rfl, rfl⟩

/-- C8 (amended): `roulette(category)` is the weight-proportional wedge
draw — the scan returns the symbol whose cumulative-weight wedge
contains the uniform draw in `[0, sum)` — whereas `roulette_terminal`
is a UNIFORM draw over the category's terminals (`random::element`),
each terminal being hit once per occurrence across the index space, not
in proportion to its weight. -/
theorem c8_roulette_draw_law :
    (∀ (ss : SymbolSet) (c slot i : Nat),
      cumWeight (ss.symbolsOf c) i ≤ slot →
      slot < cumWeight (ss.symbolsOf c) (i + 1) →
      ss.roulette c slot = (ss.symbolsOf c)[i]?) ∧
    (∀ (ss : SymbolSet) (c : Nat) (sym : Symbol),
      ((List.range (ss.terminalsOf c).length).countP
        (fun u => ss.rouletteTerminal c u == some sym))
        = (ss.terminalsOf c).count sym) := by
  constructor
  · intro ss c slot i h1 h2
    exact rouletteScan_wedge (ss.symbolsOf c) slot i h1 h2
  · intro ss c sym
    simpa [SymbolSet.rouletteTerminal, List.get?_eq_getElem?] using
      countP_get_range (ss.terminalsOf c) sym

/-- C8 witness: on the concrete two-terminal category, the wedge draw at
slot 3 lands in the weight-1 symbol's wedge `[3, 4)`, and the uniform
terminal draw hits that symbol for exactly one of the two indices. -/
theorem c8_witness :
    ssT.roulette 0 3 = some symA ∧
    ((List.range 2).countP (fun u => ssT.rouletteTerminal 0 u == some symA))
      = 1 := by
  constructor
  · exact (c8_roulette_draw_law.1 ssT 0 3 1 (by decide) (by decide)).trans
      (by decide)
  · exact (c8_roulette_draw_law.2 ssT 0 symA).trans (by decide)

/-- C8 counterexample: `roulette_terminal` is not weight-proportional.
With terminals of weights 3 and 1 (sum 4), the weight-1 terminal is
returned for 1 of the 2 uniform indices (probability 1/2), while a
weight-proportional draw would give it 1/4: the proportionality equation
`hits * sum = weight * draws` fails for the uniform terminal draw (it
holds for the wedge draw over the 4 slots). -/
theorem c8_counterexample_terminal_not_weighted :
    ((List.range 2).countP (fun u => ssT.rouletteTerminal 0 u == some symA))
        * (ssT.sumOf 0)
      ≠ symA.weight * 2 ∧
    ((List.range 4).countP (fun slot => ssT.roulette 0 slot == some symA))
        * (ssT.sumOf 0)
      = symA.weight * 4 := by
  decide

/-- C9: failure propagation in `dbl::div::eval` and `dbl::add::eval`.
An empty argument evaluation is returned unchanged (short-circuit,
without evaluating further); with both arguments valid, a non-finite
quotient yields an empty result (and a finite quotient is returned),
and a non-finite sum of finite operands yields an empty result — no
branch raises an error. -/
theorem c9_arith_failure_propagation :
    (∀ ev1 : Option DblVal, fdivEval none ev1 = none) ∧
    (∀ v0 : DblVal, fdivEval (some v0) none = none) ∧
    (∀ v0 v1 : DblVal, isFiniteB (dDiv v0 v1) = false →
      fdivEval (some v0) (some v1) = none) ∧
    (∀ v0 v1 : DblVal, isFiniteB (dDiv v0 v1) = true →
      fdivEval (some v0) (some v1) = some (dDiv v0 v1)) ∧
    (∀ ev1 : Option DblVal, faddEval none ev1 = none) ∧
    (∀ v0 : DblVal, faddEval (some v0) none = none) ∧
    (∀ v0 v1 : DblVal, isFiniteB v0 = true → isFiniteB v1 = true →
      isFiniteB (dAdd v0 v1) = false →
      faddEval (some v0) (some v1) = none) := by
  refine ⟨fun _ => rfl, fun _ => rfl, ?_, ?_, fun _ => rfl, fun _ => rfl, ?_⟩
  · intro v0 v1 h
    simp [fdivEval, h]
  · intro v0 v1 h
    simp [fdivEval, h]
  · intro v0 v1 h0 h1 hnf
    cases v0 with
    | num a =>
      cases v1 with
      | num b =>
        have hd : dAdd (DblVal.num a) (DblVal.num b) = clampDbl (a + b) := rfl
        have hf : faddEval (some (DblVal.num a)) (some (DblVal.num b))
            = if isInfB (clampDbl (a + b)) then none
              else some (clampDbl (a + b)) := rfl
        rw [hd] at hnf
        rw [hf]
        unfold clampDbl at hnf ⊢
        by_cases hgt : a + b > maxDbl
        · rw [if_pos hgt] at hnf ⊢
          rfl
        · rw [if_neg hgt] at hnf ⊢
          by_cases hlt : a + b < -maxDbl
          · rw [if_pos hlt] at hnf ⊢
            rfl
          · rw [if_neg hlt] at hnf
            exact absurd hnf (by simp [isFiniteB])
      | inf => simp [isFiniteB] at h1
      | ninf => simp [isFiniteB] at h1
      | nan => simp [isFiniteB] at h1
    | inf => simp [isFiniteB] at h0
    | ninf => simp [isFiniteB] at h0
    | nan => simp [isFiniteB] at h0

/-- C9 witness: division of 1.0 by 0.0 (non-finite quotient) yields the
empty value; adding two maximal finite doubles overflows to infinity and
yields the empty value; an empty first argument short-circuits. -/
theorem c9_witness :
    fdivEval (some (DblVal.num 1)) (some (DblVal.num 0)) = none ∧
    faddEval (some (DblVal.num maxDbl)) (some (DblVal.num maxDbl)) = none ∧
    fdivEval none (some (DblVal.num 1)) = none := by
  refine ⟨?_, ?_, c9_arith_failure_propagation.1 (some (DblVal.num 1))⟩
  · exact c9_arith_failure_propagation.2.2.1 (DblVal.num 1) (DblVal.num 0)
      (by decide)
  · have hpos : (0 : Rat) < maxDbl := by
      rw [maxDbl]
      positivity
    have hgt : maxDbl + maxDbl > maxDbl := by linarith
    exact c9_arith_failure_propagation.2.2.2.2.2.2 (DblVal.num maxDbl)
      (DblVal.num maxDbl) rfl rfl
      (by simp [dAdd, clampDbl, hgt, isFiniteB])

/-- C10 (amended): `inc_age` changes only the age — the genome, the
cached signature, the packed byte form, the recomputed hash and the
returned signature are untouched, and the results of `operator==` and
`distance` against any other individual are unchanged.  The packed form
(and hence the signature) never hashes the age, so two gene-identical
individuals with different ages share one signature whenever their
caches are empty, and compare equal whenever their cached-signature
fields agree — but, as the counterexample shows, not necessarily when
exactly one of them has a cached signature. -/
theorem c10_inc_age_frame (ind b : INumGa) (cs : Nat) :
    (incAge ind).genome = ind.genome ∧
    (incAge ind).sigCache = ind.sigCache ∧
    (incAge ind).age = ind.age + 1 ∧
    pack (incAge ind).genome = pack ind.genome ∧
    hashOf (incAge ind) = hashOf ind ∧
    signatureVal (incAge ind) = signatureVal ind ∧
    iNumGaEq (incAge ind) b = iNumGaEq ind b ∧
    iNumGaEq b (incAge ind) = iNumGaEq b ind ∧
    distance cs (incAge ind) b = distance cs ind b ∧
    (∀ a2 b2 : INumGa, genomeEqB a2.genome b2.genome = true →
      a2.sigCache = b2.sigCache → iNumGaEq a2 b2 = true) ∧
    (∀ a2 b2 : INumGa, genomeEqB a2.genome b2.genome = true →
      a2.sigCache.emptyB = true → b2.sigCache.emptyB = true →
      signatureVal a2 = signatureVal b2) := by
  refine ⟨rfl, rfl, rfl, rfl, rfl, rfl, rfl, rfl, rfl, ?_, ?_⟩
  · intro a2 b2 hg hc
    simp [iNumGaEq, hc, hg]
  · intro a2 b2 hg he1 he2
    simp only [signatureVal, he1, he2, if_pos]
    simp only [hashOf, pack_congr a2.genome b2.genome hg]

/-- C10 witness: at concrete gene-identical individuals of ages 0 and 5
with empty caches, `inc_age` effects and the equal-cache comparison and
shared signature, evaluated concretely. -/
theorem c10_witness :
    iNumGaEq indE indF = true ∧
    signatureVal indE = signatureVal indF ∧
    (incAge indF).age = 6 ∧
    (incAge indF).genome = indF.genome := by
  obtain ⟨hg, -, ha, -, -, -, -, -, -, h10, h11⟩ := c10_inc_age_frame indF indE 1
  exact ⟨h10 indE indF (by decide) (by decide),
    h11 indE indF (by decide) (by decide) (by decide), ha, hg⟩

end Vita
